import Mathlib

/-!
Shallow embedding of the divan benchmarking core (src/time.rs, src/bench.rs,
src/entry.rs, src/counter/mod.rs) together with theorems checking the
natural-language specification against it.

Machine integers are modelled as `Nat`; the one place where wraparound is
relevant to a claim (the `u128` multiplication in `From<Duration> for
FineDuration`) carries an explicit `% 2 ^ 128`.
-/

namespace Divan

/-- Picosecond-precise duration (src/time.rs, `FineDuration`). The single
field `picos` is a `u128` in the source; it is modelled as `Nat`, with the
wraparound of the conversion from `Duration` made explicit below. -/
structure FineDuration where
  picos : Nat
deriving DecidableEq

/-- Numeric order on durations, as derived `Ord`/`PartialOrd` on the single
`picos` field in the source. -/
instance : LE FineDuration := ⟨fun a b => a.picos ≤ b.picos⟩

theorem FineDuration.le_def (a b : FineDuration) : a ≤ b ↔ a.picos ≤ b.picos :=
  Iff.rfl

/-- Modulus of `u128` arithmetic. -/
def U128_MOD : Nat := 2 ^ 128

/-- Model of `std::time::Duration`: a 64-bit second count and a nanosecond
count below one billion. The field invariants (`secs < 2 ^ 64`,
`nanos < 10 ^ 9`) appear as hypotheses where needed. -/
structure Duration where
  secs : Nat
  nanos : Nat
deriving DecidableEq

/-- Model of `Duration::as_nanos`: total nanosecond count as `u128`. The
result is below `2 ^ 64 * 10 ^ 9 + 10 ^ 9 < 2 ^ 128` for any valid
`Duration`, so no wraparound is modelled here. -/
def Duration.as_nanos (d : Duration) : Nat :=
  d.secs * 1000000000 + d.nanos

/-- The maximum representable `std::time::Duration` (`Duration::MAX`). -/
def Duration.MAX : Duration :=
  { secs := 2 ^ 64 - 1, nanos := 999999999 }

/-- Conversion `impl From<Duration> for FineDuration` (src/time.rs lines
9-14): `picos = duration.as_nanos() * 1_000`, a `u128` multiplication, hence
the explicit wraparound. -/
def FineDuration.fromDuration (d : Duration) : FineDuration :=
  ⟨d.as_nanos * 1000 % U128_MOD⟩

/-- Modelled from the spec: `Sample` (its file, stats.rs, is not under
src/). Fields are the number of inner repetitions `size` and the measured
wall-clock `total_duration`; the two monotonic `Instant` readings `start`
and `end` are omitted as real-time values not used by any reduction. -/
structure Sample where
  size : Nat
  total_duration : FineDuration
deriving DecidableEq

/-- Modelled from the spec: per-sample average duration, `total_duration /
size` with integer division (spec section 3, `Sample`). -/
def Sample.avg_duration (s : Sample) : FineDuration :=
  ⟨s.total_duration.picos / s.size⟩

/-- Modelled from the spec: `Sample::avg_duration_between`, used by the
even-count median, which the spec defines as the average of the two
per-sample average durations (spec section 4.1, `median_duration`). -/
def Sample.avg_duration_between (s1 s2 : Sample) : FineDuration :=
  ⟨(s1.avg_duration.picos + s2.avg_duration.picos) / 2⟩

/-- Modelled from the spec: `Stats` (stats.rs is not under src/), with the
fields enumerated in spec section 3 and constructed by
`Context::compute_stats` in src/bench.rs. -/
structure Stats where
  sample_count : Nat
  total_count : Nat
  total_duration : FineDuration
  avg_duration : FineDuration
  min_duration : FineDuration
  max_duration : FineDuration
  median_duration : FineDuration
deriving DecidableEq

/-- Options set by the user (src/bench.rs, `BenchOptions`). -/
structure BenchOptions where
  sample_count : Option Nat := none
  sample_size : Option Nat := none

/-- Benchmarking loop context (src/bench.rs, `Context`): the `--test` flag,
user options, and the recorded samples. -/
structure Context where
  is_test : Bool
  options : BenchOptions
  samples : List Sample

/-- Resolution of the effective sample count (src/bench.rs lines 96-97):
1 in test mode, else the configured count or the default 1000. -/
def Context.resolvedSampleCount (c : Context) : Nat :=
  if c.is_test then 1 else c.options.sample_count.getD 1000

/-- Resolution of the effective sample size (src/bench.rs line 99):
1 in test mode, else the configured size or the default 1000. -/
def Context.resolvedSampleSize (c : Context) : Nat :=
  if c.is_test then 1 else c.options.sample_size.getD 1000

/-- Recording of one measurement (src/bench.rs, `Context::end_sample`): push
a sample of the given size and measured duration. The `Instant` readings and
the fences are real-time effects with no bearing on the recorded data beyond
the duration, which is supplied here by the abstract clock. -/
def Context.end_sample (c : Context) (size : Nat) (d : FineDuration) : Context :=
  { c with samples := c.samples ++ [⟨size, d⟩] }

/-- Inner sample loop of `Context::bench_loop`: call `f` exactly `n` times.
The benchmarked function is modelled as a state transformer `f : σ → σ`, so
the number of calls is visible in the final state. Both branches of the
source (deferred-drop and plain) call `f` exactly `sample_size` times and
record the same sample; the drop-store bookkeeping does not change the
recorded data, so the two branches coincide in this model. -/
def sampleLoop {σ : Type} (f : σ → σ) : Nat → σ → σ
  | 0, s => s
  | n + 1, s => sampleLoop f n (f s)

/-- Outer batch loop of `Context::bench_loop` (src/bench.rs lines 111-151):
run `remaining` further batches, the next one having index `i`. Each batch
runs the inner loop `ss` times and records one sample whose duration is
given by the abstract clock `durs` at the batch index. -/
def benchBatches {σ : Type} (f : σ → σ) (durs : Nat → FineDuration) (ss : Nat) :
    Nat → Nat → Context → σ → Context × σ
  | _, 0, c, s => (c, s)
  | i, r + 1, c, s =>
      benchBatches f durs ss (i + 1) r (c.end_sample ss (durs i)) (sampleLoop f ss s)

/-- The benchmarking loop (src/bench.rs, `Context::bench_loop`): resolve the
sample count and size, return immediately when either is zero, otherwise run
that many batches. `durs` abstracts the monotonic clock: `durs i` is the
measured duration of batch `i`. -/
def Context.bench_loop {σ : Type} (c : Context) (f : σ → σ) (s0 : σ)
    (durs : Nat → FineDuration) : Context × σ :=
  let sample_count := c.resolvedSampleCount
  let sample_size := c.resolvedSampleSize
  if sample_count = 0 ∨ sample_size = 0 then (c, s0)
  else benchBatches f durs sample_size 0 sample_count c s0

/-- Model of `u128::checked_div`: `none` exactly when the divisor is zero. -/
def checked_div (a b : Nat) : Option Nat :=
  if b = 0 then none else some (a / b)

/-- Totals fold of `Context::compute_totals` (src/bench.rs lines 182-188):
sum of sample sizes (widened to `u64`) and of total durations. -/
def Context.compute_totals (c : Context) : Nat × FineDuration :=
  c.samples.foldl
    (fun acc sample => (acc.1 + sample.size, ⟨acc.2.picos + sample.total_duration.picos⟩))
    (0, ⟨0⟩)

/-- Comparison used by `ordered_samples.sort_unstable_by_key(|s|
s.avg_duration())`: numeric order of per-sample average durations. -/
def sampleLE (s1 s2 : Sample) : Prop :=
  s1.avg_duration.picos ≤ s2.avg_duration.picos

instance : DecidableRel sampleLE := fun s1 s2 =>
  inferInstanceAs (Decidable (s1.avg_duration.picos ≤ s2.avg_duration.picos))

instance : IsTotal Sample sampleLE := ⟨fun s1 s2 => Nat.le_total s1.avg_duration.picos s2.avg_duration.picos⟩

instance : IsTrans Sample sampleLE := ⟨fun _ _ _ => Nat.le_trans⟩

instance : IsRefl Sample sampleLE := ⟨fun _ => Nat.le_refl _⟩

/-- View of the samples ordered by ascending per-sample average duration,
as built by `compute_stats`. The source uses an unstable sort with ties
broken arbitrarily; insertion sort is one admissible order. -/
def orderedSamples (samples : List Sample) : List Sample :=
  List.insertionSort sampleLE samples

/-- Default sample used to model in-range `Vec` indexing. -/
def dfltSample : Sample := ⟨0, ⟨0⟩⟩

/-- Statistics reduction (src/bench.rs, `Context::compute_stats`, lines
190-226), translated clause by clause: totals, ordered view, guarded
average, first/last extremes, and the three-way median. -/
def Context.compute_stats (c : Context) : Stats :=
  let sample_count := c.samples.length
  let totals := c.compute_totals
  let total_count := totals.1
  let total_duration := totals.2
  let ordered_samples := orderedSamples c.samples
  let avg_duration : FineDuration :=
    ⟨(checked_div total_duration.picos total_count).getD 0⟩
  let min_duration : FineDuration :=
    (ordered_samples.head?.map Sample.avg_duration).getD ⟨0⟩
  let max_duration : FineDuration :=
    (ordered_samples.getLast?.map Sample.avg_duration).getD ⟨0⟩
  let median_duration : FineDuration :=
    if sample_count = 0 then ⟨0⟩
    else if sample_count % 2 = 0 then
      let s1 := ordered_samples.getD (sample_count / 2) dfltSample
      let s2 := ordered_samples.getD (sample_count / 2 - 1) dfltSample
      s1.avg_duration_between s2
    else
      (ordered_samples.getD (sample_count / 2) dfltSample).avg_duration
  { sample_count := sample_count
    total_count := total_count
    total_duration := total_duration
    avg_duration := avg_duration
    min_duration := min_duration
    max_duration := max_duration
    median_duration := median_duration }

/-- Median as the spec words it, over an already-ordered view: zero-valued
for no samples, the average of the per-sample average durations at indices
`n/2` and `n/2 - 1` for even `n`, and the per-sample average duration at
index `n/2` for odd `n` (spec section 4.1, `median_duration`). -/
def medianOfOrdered (ordered : List Sample) : FineDuration :=
  let n := ordered.length
  if n = 0 then ⟨0⟩
  else if n % 2 = 0 then
    ⟨((ordered.getD (n / 2) dfltSample).avg_duration.picos
      + (ordered.getD (n / 2 - 1) dfltSample).avg_duration.picos) / 2⟩
  else
    (ordered.getD (n / 2) dfltSample).avg_duration

/-- Compile-time benchmark entry (src/entry.rs, `Entry`). The `bench_loop`
field (a function pointer into the harness) is omitted: it plays no part in
tree construction. -/
structure Entry where
  name : String
  module_path : String
  full_path : String
  file : String
  line : Nat
  ignore : Bool
deriving DecidableEq

/-- Split of a character list on the two-character separator `::`, with the
semantics of Rust's `str::split("::")`: segments between leftmost
non-overlapping matches, and one empty segment for the empty input. -/
def splitColons : List Char → List (List Char)
  | [] => [[]]
  | ':' :: ':' :: rest => [] :: splitColons rest
  | c :: rest =>
      match splitColons rest with
      | [] => [[c]]
      | seg :: segs => (c :: seg) :: segs

/-- Path components of an entry (src/entry.rs, `Entry::module_components`):
`module_path.split("::")`. -/
def Entry.module_components (e : Entry) : List String :=
  (splitColons e.module_path.data).map fun seg => ⟨seg⟩

/-- Entry tree organized by path components (src/entry.rs, `EntryTree`). -/
inductive EntryTree where
  | Leaf (entry : Entry)
  | Parent (name : String) (children : List EntryTree)

/-- Names of the `Parent` nodes of a forest, in order. `m ∈ parentNames t`
exactly when `EntryTree::get_children(t, m)` would return `Some`. -/
def parentNames : List EntryTree → List String
  | [] => []
  | .Parent name _ :: rest => name :: parentNames rest
  | .Leaf _ :: rest => parentNames rest

/-- Fresh chain construction (src/entry.rs, `EntryTree::from_path`): a chain
of single-child `Parent` nodes through the remaining path components, ending
in a `Leaf` for the entry. -/
def EntryTree.from_path (entry : Entry) (current : String) : List String → EntryTree
  | [] => .Parent current [.Leaf entry]
  | next :: rest => .Parent current [EntryTree.from_path entry next rest]

/-- Application of `g` to the children of the first `Parent` named `m`,
leaving everything else in place: the functional counterpart of mutating
through `EntryTree::get_children`, which returns the first match. -/
def mapFirstParent (m : String) (g : List EntryTree → List EntryTree) :
    List EntryTree → List EntryTree
  | [] => []
  | .Parent name cs :: rest =>
      if name = m then .Parent name (g cs) :: rest
      else .Parent name cs :: mapFirstParent m g rest
  | .Leaf e :: rest => .Leaf e :: mapFirstParent m g rest

/-- Insertion of one entry (src/entry.rs, `EntryTree::insert`): descend into
an existing `Parent` matching the next path component when there is one,
otherwise push a fresh chain; with no components left, push a `Leaf`. -/
def EntryTree.insert (entry : Entry) : List String → List EntryTree → List EntryTree
  | [], tree => tree ++ [.Leaf entry]
  | m :: ms, tree =>
      if m ∈ parentNames tree then
        mapFirstParent m (fun cs => EntryTree.insert entry ms cs) tree
      else
        tree ++ [EntryTree.from_path entry m ms]

/-- Forest construction (src/entry.rs, `EntryTree::from_entries`): fold the
entries in order into an initially empty forest. -/
def EntryTree.from_entries (entries : List Entry) : List EntryTree :=
  entries.foldl (fun result entry => EntryTree.insert entry entry.module_components result) []

/-- Well-formedness of a node: among the children of every `Parent`, no two
`Parent` nodes share a name. -/
inductive NodeOk : EntryTree → Prop
  | leaf (e : Entry) : NodeOk (.Leaf e)
  | parent (name : String) (cs : List EntryTree)
      (hnames : (parentNames cs).Nodup)
      (hchildren : ∀ c ∈ cs, NodeOk c) : NodeOk (.Parent name cs)

/-- Well-formedness of a forest: no two sibling `Parent` nodes at the top
level share a name, and every node is well-formed. -/
def ForestOk (ts : List EntryTree) : Prop :=
  (parentNames ts).Nodup ∧ ∀ t ∈ ts, NodeOk t

/-- Model of `MaxCountUInt` from the spec (src/counter/uint.rs is not under
src/): the widest unsigned count the counter model supports; counts in the
claims are far below any machine bound, so it is modelled as `Nat`. Process
N bytes (src/counter/mod.rs, `Bytes`). -/
structure Bytes where
  count : Nat
deriving DecidableEq

/-- Process N chars (src/counter/mod.rs, `Chars`). -/
structure Chars where
  count : Nat
deriving DecidableEq

/-- Byte length of one scalar value in UTF-8, modelling how
`std::mem::size_of_val` sees a Rust `str`'s bytes per code point. -/
def charUtf8Size (c : Char) : Nat :=
  if c.toNat ≤ 0x7F then 1
  else if c.toNat ≤ 0x7FF then 2
  else if c.toNat ≤ 0xFFFF then 3
  else 4

/-- UTF-8 byte length of a character list. -/
def utf8Len : List Char → Nat
  | [] => 0
  | c :: cs => charUtf8Size c + utf8Len cs

/-- Byte count of a string (src/counter/mod.rs, `Bytes::of_str`, via
`Bytes::of_val` and `size_of_val`, the UTF-8 byte length of the `str`). -/
def Bytes.of_str (s : String) : Bytes :=
  ⟨utf8Len s.data⟩

/-- Char count of a string (src/counter/mod.rs, `Chars::of_str`:
`s.chars().count()`, the number of Unicode scalar values). -/
def Chars.of_str (s : String) : Chars :=
  ⟨s.data.length⟩

/-- Concrete entry with full path `a::b::x`, from the spec's merge law. -/
def entryX : Entry :=
  { name := "x", module_path := "a::b", full_path := "a::b::x"
    file := "f.rs", line := 1, ignore := false }

/-- Concrete entry with full path `a::b::y`, from the spec's merge law. -/
def entryY : Entry :=
  { name := "y", module_path := "a::b", full_path := "a::b::y"
    file := "f.rs", line := 2, ignore := false }

/-- Concrete entry with full path `a::c::z`, from the spec's merge law. -/
def entryZ : Entry :=
  { name := "z", module_path := "a::c", full_path := "a::c::z"
    file := "f.rs", line := 3, ignore := false }

/-- Concrete entry whose module path is the empty string. -/
def entryRootless : Entry :=
  { name := "w", module_path := "", full_path := "w"
    file := "f.rs", line := 4, ignore := false }

/- Helper lemmas. -/

theorem length_orderedSamples (l : List Sample) :
    (orderedSamples l).length = l.length :=
  (List.perm_insertionSort sampleLE l).length_eq

theorem parentNames_append (a b : List EntryTree) :
    parentNames (a ++ b) = parentNames a ++ parentNames b := by
  induction a with
  | nil => rfl
  | cons t rest ih => cases t <;> simp [parentNames, ih]

theorem parentNames_mapFirstParent (m : String)
    (g : List EntryTree → List EntryTree) (ts : List EntryTree) :
    parentNames (mapFirstParent m g ts) = parentNames ts := by
  induction ts with
  | nil => rfl
  | cons t rest ih =>
    cases t with
    | Parent name cs =>
      by_cases h : name = m
      · simp [mapFirstParent, h, parentNames]
      · simp [mapFirstParent, h, parentNames, ih]
    | Leaf e => simp [mapFirstParent, parentNames, ih]

theorem parentNames_from_path (e : Entry) (m : String) (ms : List String) :
    parentNames [EntryTree.from_path e m ms] = [m] := by
  cases ms <;> simp [EntryTree.from_path, parentNames]

theorem nodeOk_from_path (e : Entry) (ms : List String) :
    ∀ m : String, NodeOk (EntryTree.from_path e m ms) := by
  induction ms with
  | nil =>
    intro m
    refine NodeOk.parent m [.Leaf e] (by simp [parentNames]) ?_
    intro c hc
    rw [List.mem_singleton] at hc
    subst hc
    exact NodeOk.leaf e
  | cons next rest ih =>
    intro m
    refine NodeOk.parent m [EntryTree.from_path e next rest] ?_ ?_
    · rw [parentNames_from_path]
      exact List.nodup_singleton next
    · intro c hc
      rw [List.mem_singleton] at hc
      subst hc
      exact ih next

theorem nodeOk_parent_iff (n : String) (cs : List EntryTree) :
    NodeOk (.Parent n cs) ↔ ForestOk cs := by
  constructor
  · intro h
    cases h with
    | parent _ _ h1 h2 => exact ⟨h1, h2⟩
  · intro ⟨h1, h2⟩
    exact NodeOk.parent n cs h1 h2

theorem forestOk_cons_iff (t : EntryTree) (rest : List EntryTree) :
    ForestOk (t :: rest) ↔
      ForestOk rest ∧ NodeOk t ∧
        (∀ n cs, t = .Parent n cs → n ∉ parentNames rest) := by
  constructor
  · intro ⟨h1, h2⟩
    cases t with
    | Parent name cs =>
      rw [parentNames, List.nodup_cons] at h1
      refine ⟨⟨h1.2, fun u hu => h2 u (List.mem_cons_of_mem _ hu)⟩,
        h2 _ (List.mem_cons_self _ _), ?_⟩
      intro n cs2 heq
      cases heq
      exact h1.1
    | Leaf e =>
      rw [parentNames] at h1
      exact ⟨⟨h1, fun u hu => h2 u (List.mem_cons_of_mem _ hu)⟩,
        h2 _ (List.mem_cons_self _ _), fun n cs2 heq => by cases heq⟩
  · intro ⟨⟨h1, h2⟩, h3, h4⟩
    refine ⟨?_, ?_⟩
    · cases t with
      | Parent name cs =>
        rw [parentNames, List.nodup_cons]
        exact ⟨h4 name cs rfl, h1⟩
      | Leaf e => rw [parentNames]; exact h1
    · intro u hu
      rcases List.mem_cons.1 hu with rfl | hu
      · exact h3
      · exact h2 u hu

theorem forestOk_mapFirstParent (m : String) (g : List EntryTree → List EntryTree)
    (hg : ∀ cs, ForestOk cs → ForestOk (g cs)) :
    ∀ ts, ForestOk ts → ForestOk (mapFirstParent m g ts) := by
  intro ts
  induction ts with
  | nil => intro h; exact h
  | cons t rest ih =>
    intro hok
    obtain ⟨hrest, hnode, hfresh⟩ := (forestOk_cons_iff t rest).1 hok
    cases t with
    | Parent name cs =>
      by_cases h : name = m
      · rw [mapFirstParent, if_pos h]
        refine (forestOk_cons_iff _ _).2 ⟨hrest, ?_, ?_⟩
        · exact (nodeOk_parent_iff _ _).2 (hg cs ((nodeOk_parent_iff _ _).1 hnode))
        · intro n cs2 heq
          cases heq
          exact hfresh name cs rfl
      · rw [mapFirstParent, if_neg h]
        refine (forestOk_cons_iff _ _).2 ⟨ih hrest, hnode, ?_⟩
        intro n cs2 heq
        cases heq
        rw [parentNames_mapFirstParent]
        exact hfresh name cs rfl
    | Leaf e =>
      rw [mapFirstParent]
      refine (forestOk_cons_iff _ _).2 ⟨ih hrest, hnode, ?_⟩
      intro n cs2 heq
      cases heq

theorem forestOk_append_leaf (ts : List EntryTree) (e : Entry)
    (h : ForestOk ts) : ForestOk (ts ++ [.Leaf e]) := by
  obtain ⟨h1, h2⟩ := h
  constructor
  · rw [parentNames_append]
    simpa [parentNames] using h1
  · intro t ht
    rcases List.mem_append.1 ht with ht | ht
    · exact h2 t ht
    · rw [List.mem_singleton] at ht
      subst ht
      exact NodeOk.leaf e

theorem forestOk_insert (e : Entry) :
    ∀ (ms : List String) (ts : List EntryTree),
      ForestOk ts → ForestOk (EntryTree.insert e ms ts) := by
  intro ms
  induction ms with
  | nil => intro ts h; exact forestOk_append_leaf ts e h
  | cons m ms ih =>
    intro ts hok
    rw [EntryTree.insert]
    by_cases hm : m ∈ parentNames ts
    · rw [if_pos hm]
      exact forestOk_mapFirstParent m _ (fun cs h => ih cs h) ts hok
    · rw [if_neg hm]
      obtain ⟨h1, h2⟩ := hok
      constructor
      · rw [parentNames_append, parentNames_from_path]
        simp [List.nodup_append, h1, hm]
      · intro t ht
        rcases List.mem_append.1 ht with ht | ht
        · exact h2 t ht
        · rw [List.mem_singleton] at ht
          subst ht
          exact nodeOk_from_path e ms m

theorem forestOk_from_entries_aux (entries : List Entry) :
    ∀ acc, ForestOk acc →
      ForestOk (entries.foldl
        (fun result entry => EntryTree.insert entry entry.module_components result) acc) := by
  induction entries with
  | nil => intro acc h; exact h
  | cons e rest ih =>
    intro acc h
    exact ih _ (forestOk_insert e e.module_components acc h)

/- Claim theorems. -/

/-- Claim C1: compute_stats derives median_duration from the view ordered
by ascending per-sample average duration exactly as the spec words it, and
the spec's median law holds on the two concrete examples. -/
theorem C1_median_from_ordered_view :
    (∀ c : Context,
      c.compute_stats.median_duration = medianOfOrdered (orderedSamples c.samples))
    ∧ (Context.mk false ⟨none, none⟩
        [⟨1, ⟨10⟩⟩, ⟨1, ⟨20⟩⟩, ⟨1, ⟨30⟩⟩]).compute_stats.median_duration = ⟨20⟩
    ∧ (Context.mk false ⟨none, none⟩
        [⟨1, ⟨10⟩⟩, ⟨1, ⟨20⟩⟩, ⟨1, ⟨30⟩⟩, ⟨1, ⟨40⟩⟩]).compute_stats.median_duration = ⟨25⟩ := by
  refine ⟨?_, rfl, rfl⟩
  intro c
  have h := length_orderedSamples c.samples
  simp only [Context.compute_stats, medianOfOrdered, Sample.avg_duration_between, h]

/-- Claim C2: with a resolved sample count or size of zero, bench_loop runs
no batches and leaves everything untouched, and compute_stats of an empty
sample list is the all-zero Stats; the guarded division yields zero rather
than failing. -/
theorem C2_zero_config_zero_stats {σ : Type} (f : σ → σ) (s0 : σ)
    (durs : Nat → FineDuration) (c : Context)
    (hz : c.resolvedSampleCount = 0 ∨ c.resolvedSampleSize = 0) :
    c.bench_loop f s0 durs = (c, s0)
    ∧ (c.samples = [] → c.compute_stats =
        { sample_count := 0, total_count := 0, total_duration := ⟨0⟩
          avg_duration := ⟨0⟩, min_duration := ⟨0⟩, max_duration := ⟨0⟩
          median_duration := ⟨0⟩ }) := by
  constructor
  · simp only [Context.bench_loop]
    rw [if_pos hz]
  · intro hemp
    obtain ⟨t, o, samples⟩ := c
    simp only at hemp
    subst hemp
    rfl

/-- Witness for C2 with a configured sample count of zero. -/
theorem C2_witness :
    (Context.mk false ⟨some 0, none⟩ []).bench_loop id (0 : Nat) (fun _ => ⟨0⟩)
        = (Context.mk false ⟨some 0, none⟩ [], 0)
    ∧ (Context.mk false ⟨some 0, none⟩ []).compute_stats =
        { sample_count := 0, total_count := 0, total_duration := ⟨0⟩
          avg_duration := ⟨0⟩, min_duration := ⟨0⟩, max_duration := ⟨0⟩
          median_duration := ⟨0⟩ } :=
  ⟨(C2_zero_config_zero_stats id 0 (fun _ => ⟨0⟩)
      (Context.mk false ⟨some 0, none⟩ []) (Or.inl (by decide))).1,
   (C2_zero_config_zero_stats id 0 (fun _ => ⟨0⟩)
      (Context.mk false ⟨some 0, none⟩ []) (Or.inl (by decide))).2 rfl⟩

theorem sampleLoop_eq_iterate {σ : Type} (f : σ → σ) :
    ∀ (n : Nat) (s : σ), sampleLoop f n s = f^[n] s := by
  intro n
  induction n with
  | zero => intro s; rfl
  | succ k ih =>
    intro s
    rw [sampleLoop, ih (f s)]
    exact (Function.iterate_succ_apply f k s).symm

theorem benchBatches_spec {σ : Type} (f : σ → σ) (durs : Nat → FineDuration)
    (ss : Nat) :
    ∀ (r i : Nat) (c : Context) (s : σ),
      (benchBatches f durs ss i r c s).1.samples
          = c.samples ++ (List.range' i r).map (fun k => Sample.mk ss (durs k))
      ∧ (benchBatches f durs ss i r c s).2 = f^[r * ss] s := by
  intro r
  induction r with
  | zero =>
    intro i c s
    exact ⟨by simp [benchBatches], by simp [benchBatches]⟩
  | succ k ih =>
    intro i c s
    rw [benchBatches]
    obtain ⟨hsamp, hstate⟩ := ih (i + 1) (c.end_sample ss (durs i)) (sampleLoop f ss s)
    constructor
    · rw [hsamp]
      simp [Context.end_sample, List.range'_succ]
    · rw [hstate, sampleLoop_eq_iterate f ss s, ← Function.iterate_add_apply,
        Nat.succ_mul]

/-- Claim C4: with nonzero resolved sample count and size, bench_loop
records exactly sample_count further samples, each of the resolved size,
and the benchmarked function is applied exactly sample_count × sample_size
times, visible as iterated application on the threaded state. -/
theorem C4_full_run {σ : Type} (f : σ → σ) (s0 : σ) (durs : Nat → FineDuration)
    (c : Context) (hc : c.resolvedSampleCount ≠ 0) (hs : c.resolvedSampleSize ≠ 0) :
    (c.bench_loop f s0 durs).1.samples.length
        = c.samples.length + c.resolvedSampleCount
    ∧ (∀ s ∈ (c.bench_loop f s0 durs).1.samples.drop c.samples.length,
        s.size = c.resolvedSampleSize)
    ∧ (c.bench_loop f s0 durs).2
        = f^[c.resolvedSampleCount * c.resolvedSampleSize] s0 := by
  have hcond : ¬(c.resolvedSampleCount = 0 ∨ c.resolvedSampleSize = 0) := by
    rintro (h | h)
    · exact hc h
    · exact hs h
  obtain ⟨hsamp, hstate⟩ :=
    benchBatches_spec f durs c.resolvedSampleSize c.resolvedSampleCount 0 c s0
  simp only [Context.bench_loop]
  rw [if_neg hcond]
  refine ⟨?_, ?_, hstate⟩
  · rw [hsamp]
    simp
  · intro s hsmem
    rw [hsamp, List.drop_left] at hsmem
    obtain ⟨k, _, rfl⟩ := List.mem_map.1 hsmem
    rfl

/-- Witness for C4 in test mode: one sample of size one, one application. -/
theorem C4_witness :
    ((Context.mk true ⟨none, none⟩ []).bench_loop Nat.succ 0 (fun _ => ⟨5⟩)).1.samples.length
        = (Context.mk true ⟨none, none⟩ []).samples.length
          + (Context.mk true ⟨none, none⟩ []).resolvedSampleCount
    ∧ ((Context.mk true ⟨none, none⟩ []).bench_loop Nat.succ 0 (fun _ => ⟨5⟩)).2
        = Nat.succ^[(Context.mk true ⟨none, none⟩ []).resolvedSampleCount
            * (Context.mk true ⟨none, none⟩ []).resolvedSampleSize] 0 :=
  ⟨(C4_full_run Nat.succ 0 (fun _ => ⟨5⟩) (Context.mk true ⟨none, none⟩ [])
      (by decide) (by decide)).1,
   (C4_full_run Nat.succ 0 (fun _ => ⟨5⟩) (Context.mk true ⟨none, none⟩ [])
      (by decide) (by decide)).2.2⟩

/-- Claim C3: bench_loop resolves the effective sample count as 1 in test
mode, otherwise as the configured sample_count option if set, otherwise
1000; and resolves the effective sample size the same way. -/
theorem C3_resolution_of_count_and_size :
    ∀ (opts : BenchOptions) (samples : List Sample) (n : Nat),
      (Context.mk true opts samples).resolvedSampleCount = 1
      ∧ (Context.mk true opts samples).resolvedSampleSize = 1
      ∧ (Context.mk false ⟨some n, opts.sample_size⟩ samples).resolvedSampleCount = n
      ∧ (Context.mk false ⟨none, opts.sample_size⟩ samples).resolvedSampleCount = 1000
      ∧ (Context.mk false ⟨opts.sample_count, some n⟩ samples).resolvedSampleSize = n
      ∧ (Context.mk false ⟨opts.sample_count, none⟩ samples).resolvedSampleSize = 1000 :=
  fun _ _ _ => ⟨rfl, rfl, rfl, rfl, rfl, rfl⟩

/-- Claim C6: converting a standard duration yields a picosecond count
exactly equal to its nanosecond count times 1000, with no wraparound of the
`u128` multiplication, for every valid duration (seconds below `2 ^ 64`,
nanoseconds below one billion). -/
theorem C6_duration_conversion_exact (d : Duration)
    (hsecs : d.secs < 2 ^ 64) (hnanos : d.nanos < 10 ^ 9) :
    (FineDuration.fromDuration d).picos = d.as_nanos * 1000 := by
  have e64 : (2 : Nat) ^ 64 = 18446744073709551616 := by norm_num
  have emod : U128_MOD = 340282366920938463463374607431768211456 := by norm_num [U128_MOD]
  have hlt : d.as_nanos * 1000 < U128_MOD := by
    rw [emod]
    rw [e64] at hsecs
    unfold Duration.as_nanos
    omega
  rw [FineDuration.fromDuration, Nat.mod_eq_of_lt hlt]

/-- Witness for C6 at the maximum representable standard duration. -/
theorem C6_witness :
    (FineDuration.fromDuration Duration.MAX).picos = Duration.MAX.as_nanos * 1000 :=
  C6_duration_conversion_exact Duration.MAX (by decide) (by decide)

theorem sorted_avg_le_of_le (l : List Sample) (hs : List.Sorted sampleLE l)
    (i j : Nat) (hij : i ≤ j) (hj : j < l.length) :
    (l.getD i dfltSample).avg_duration.picos
      ≤ (l.getD j dfltSample).avg_duration.picos := by
  have hi : i < l.length := Nat.lt_of_le_of_lt hij hj
  rw [List.getD_eq_getElem?_getD, List.getElem?_eq_getElem hi, Option.getD_some,
    List.getD_eq_getElem?_getD, List.getElem?_eq_getElem hj, Option.getD_some]
  exact hs.rel_get_of_le (a := ⟨i, hi⟩) (b := ⟨j, hj⟩) hij

/-- Claim C5: for a non-empty sample list, the computed statistics satisfy
min_duration ≤ median_duration ≤ max_duration. -/
theorem C5_min_le_median_le_max (c : Context) (hne : c.samples ≠ []) :
    c.compute_stats.min_duration ≤ c.compute_stats.median_duration
    ∧ c.compute_stats.median_duration ≤ c.compute_stats.max_duration := by
  set l := orderedSamples c.samples with hldef
  have hlen : l.length = c.samples.length := length_orderedSamples c.samples
  have hn0 : c.samples.length ≠ 0 := fun h => hne (List.length_eq_zero.1 h)
  have hpos : 0 < l.length := by omega
  have hsort : List.Sorted sampleLE l := List.sorted_insertionSort sampleLE c.samples
  have hhead : l.head? = some (l.getD 0 dfltSample) := by
    rw [List.head?_eq_getElem?, List.getElem?_eq_getElem hpos,
      List.getD_eq_getElem?_getD, List.getElem?_eq_getElem hpos, Option.getD_some]
  have hlastlt : l.length - 1 < l.length := by omega
  have hlast : l.getLast? = some (l.getD (l.length - 1) dfltSample) := by
    rw [List.getLast?_eq_getElem?, List.getElem?_eq_getElem hlastlt,
      List.getD_eq_getElem?_getD, List.getElem?_eq_getElem hlastlt, Option.getD_some]
  have hmin : c.compute_stats.min_duration
      = (l.getD 0 dfltSample).avg_duration := by
    simp only [Context.compute_stats, ← hldef, hhead, Option.map_some', Option.getD_some]
  have hmax : c.compute_stats.max_duration
      = (l.getD (l.length - 1) dfltSample).avg_duration := by
    simp only [Context.compute_stats, ← hldef, hlast, Option.map_some', Option.getD_some]
  have hbound : ∀ k, k < l.length →
      (l.getD 0 dfltSample).avg_duration.picos
        ≤ (l.getD k dfltSample).avg_duration.picos
      ∧ (l.getD k dfltSample).avg_duration.picos
        ≤ (l.getD (l.length - 1) dfltSample).avg_duration.picos := by
    intro k hk
    exact ⟨sorted_avg_le_of_le l hsort 0 k (Nat.zero_le k) hk,
      sorted_avg_le_of_le l hsort k (l.length - 1) (by omega) hlastlt⟩
  by_cases hpar : c.samples.length % 2 = 0
  · have hmed : c.compute_stats.median_duration
        = (Sample.avg_duration_between
            (l.getD (c.samples.length / 2) dfltSample)
            (l.getD (c.samples.length / 2 - 1) dfltSample)) := by
      simp only [Context.compute_stats, ← hldef, if_neg hn0, if_pos hpar]
    have h1 := hbound (c.samples.length / 2) (by omega)
    have h2 := hbound (c.samples.length / 2 - 1) (by omega)
    rw [hmin, hmax, hmed, FineDuration.le_def, FineDuration.le_def,
      Sample.avg_duration_between]
    constructor
    · exact (Nat.le_div_iff_mul_le (by norm_num)).2 (by omega)
    · calc ((l.getD (c.samples.length / 2) dfltSample).avg_duration.picos
            + (l.getD (c.samples.length / 2 - 1) dfltSample).avg_duration.picos) / 2
          ≤ ((l.getD (l.length - 1) dfltSample).avg_duration.picos * 2) / 2 :=
            Nat.div_le_div_right (by omega)
        _ = (l.getD (l.length - 1) dfltSample).avg_duration.picos :=
            Nat.mul_div_cancel _ (by norm_num)
  · have hmed : c.compute_stats.median_duration
        = (l.getD (c.samples.length / 2) dfltSample).avg_duration := by
      simp only [Context.compute_stats, ← hldef, if_neg hn0, if_neg hpar]
    have h1 := hbound (c.samples.length / 2) (by omega)
    rw [hmin, hmax, hmed, FineDuration.le_def, FineDuration.le_def]
    exact h1

/-- Witness for C5 on a single recorded sample. -/
theorem C5_witness :
    (Context.mk false ⟨none, none⟩ [⟨1, ⟨10⟩⟩]).compute_stats.min_duration
        ≤ (Context.mk false ⟨none, none⟩ [⟨1, ⟨10⟩⟩]).compute_stats.median_duration
    ∧ (Context.mk false ⟨none, none⟩ [⟨1, ⟨10⟩⟩]).compute_stats.median_duration
        ≤ (Context.mk false ⟨none, none⟩ [⟨1, ⟨10⟩⟩]).compute_stats.max_duration :=
  C5_min_le_median_le_max (Context.mk false ⟨none, none⟩ [⟨1, ⟨10⟩⟩]) (by decide)

/-- Claim C7: the forest produced by from_entries never contains, among the
children of any node or at the root level, two Parent nodes with the same
name segment. -/
theorem C7_no_duplicate_parent_siblings (entries : List Entry) :
    ForestOk (EntryTree.from_entries entries) :=
  forestOk_from_entries_aux entries []
    ⟨List.nodup_nil, fun t ht => absurd ht (List.not_mem_nil t)⟩

/-- Claim C8: entries with full paths `a::b::x`, `a::b::y`, `a::c::z`, in
that order, produce exactly one root Parent `a` with children Parents `b`
(two Leaf children x, y) and `c` (one Leaf child z). -/
theorem C8_merge_law :
    EntryTree.from_entries [entryX, entryY, entryZ] =
      [.Parent "a" [.Parent "b" [.Leaf entryX, .Leaf entryY],
        .Parent "c" [.Leaf entryZ]]] := rfl

theorem charUtf8Size_eq_one {c : Char} (h : c.toNat ≤ 127) :
    charUtf8Size c = 1 := by
  rw [charUtf8Size, if_pos h]

theorem charUtf8Size_lower (c : Char) :
    1 + (if 127 < c.toNat then 1 else 0) ≤ charUtf8Size c := by
  rw [charUtf8Size]
  by_cases h : c.toNat ≤ 127
  · rw [if_pos h, if_neg (by omega)]
  · rw [if_neg h, if_pos (by omega)]
    by_cases h2 : c.toNat ≤ 0x7FF
    · rw [if_pos h2]
    · rw [if_neg h2]
      by_cases h3 : c.toNat ≤ 0xFFFF
      · rw [if_pos h3]; omega
      · rw [if_neg h3]; omega

theorem utf8Len_of_ascii :
    ∀ l : List Char, (∀ c ∈ l, c.toNat ≤ 127) → utf8Len l = l.length := by
  intro l
  induction l with
  | nil => intro _; rfl
  | cons c cs ih =>
    intro h
    rw [utf8Len, List.length_cons,
      charUtf8Size_eq_one (h c (List.mem_cons_self c cs)),
      ih (fun u hu => h u (List.mem_cons_of_mem c hu))]
    omega

theorem utf8Len_lower :
    ∀ l : List Char,
      l.length + l.countP (fun c => decide (127 < c.toNat)) ≤ utf8Len l := by
  intro l
  induction l with
  | nil => exact Nat.le_refl 0
  | cons c cs ih =>
    rw [utf8Len, List.length_cons, List.countP_cons]
    have h := charUtf8Size_lower c
    by_cases hc : 127 < c.toNat
    · rw [if_pos hc] at h
      rw [decide_eq_true hc, if_pos rfl]
      omega
    · rw [if_neg hc] at h
      rw [decide_eq_false hc, if_neg (by simp)]
      omega

/-- Claim C9: on any 4-character ASCII string, Bytes::of_str and
Chars::of_str both count 4; on any 4-character string with exactly one
multi-byte code point, Chars::of_str counts 4 while Bytes::of_str counts
strictly more than 4. -/
theorem C9_byte_and_char_counts :
    (∀ s : String, s.data.length = 4 → (∀ c ∈ s.data, c.toNat ≤ 127) →
      Bytes.of_str s = ⟨4⟩ ∧ Chars.of_str s = ⟨4⟩)
    ∧ (∀ s : String, s.data.length = 4 →
        (s.data.countP fun c => decide (127 < c.toNat)) = 1 →
        Chars.of_str s = ⟨4⟩ ∧ 4 < (Bytes.of_str s).count) := by
  constructor
  · intro s hlen hascii
    constructor
    · rw [Bytes.of_str, utf8Len_of_ascii s.data hascii, hlen]
    · rw [Chars.of_str, hlen]
  · intro s hlen hone
    constructor
    · rw [Chars.of_str, hlen]
    · have h := utf8Len_lower s.data
      rw [hlen, hone] at h
      rw [Bytes.of_str]
      show 4 < utf8Len s.data
      omega

/-- Witness for C9 at the strings abcd and αabc. -/
theorem C9_witness :
    (Bytes.of_str "abcd" = ⟨4⟩ ∧ Chars.of_str "abcd" = ⟨4⟩)
    ∧ (Chars.of_str "αabc" = ⟨4⟩ ∧ 4 < (Bytes.of_str "αabc").count) :=
  ⟨C9_byte_and_char_counts.1 "abcd" (by decide) (by decide),
   C9_byte_and_char_counts.2 "αabc" (by decide) (by decide)⟩

/-- Claim C10: an entry whose module path is the empty string is not placed
at the root level; its Leaf becomes the single child of a Parent named by
the empty string, since splitting the empty string on `::` yields one empty
segment. -/
theorem C10_empty_module_path :
    EntryTree.from_entries [entryRootless] =
      [.Parent "" [.Leaf entryRootless]] := rfl

end Divan
